import Mathlib

/-!
Verification of the git resolution core of this repository against its
natural-language specification.

Go strings are modelled as `List Char` (UTF-8 byte order coincides with
code-point order, so Go's byte-wise comparison agrees with the char-wise
comparison used here).  Go slices and maps of `*Ref` pointers are modelled
with an explicit heap (`heap : List GoRef`, addresses are indices), because
`Remote.lookup` mutates a stored `Ref` in place through such a pointer.
-/

/-- Go strings, modelled as lists of characters. -/
abbrev Str := List Char

/-- Converts a Lean string literal to the `Str` model. -/
def str (s : String) : Str := s.data

/-- Go `strings.TrimPrefix(s, pre)`: drop `pre` from the front of `s` when it
is a prefix, otherwise return `s` unchanged. -/
def dropPfx (s pre : Str) : Str :=
  if pre.isPrefixOf s then s.drop pre.length else s

/-- Go `<` on strings (byte-wise lexicographic; char-wise here). -/
def strLtB : Str → Str → Bool
  | [], [] => false
  | [], _ :: _ => true
  | _ :: _, [] => false
  | a :: as, b :: bs => if a < b then true else if a = b then strLtB as bs else false

/-- Go `>=` on strings. -/
def strGeB (a b : Str) : Bool := !(strLtB a b)

/-- Names are in non-decreasing Go string order. -/
def sortedB : List Str → Bool
  | [] => true
  | [_] => true
  | a :: b :: rest => strGeB b a && sortedB (b :: rest)

theorem isPrefixOf_append_self (p s : Str) : p.isPrefixOf (p ++ s) = true := by
  induction p with
  | nil => simp [List.isPrefixOf]
  | cons a as ih => simp [List.isPrefixOf, ih]

theorem dropPfx_append (p s : Str) : dropPfx (p ++ s) p = s := by
  unfold dropPfx
  rw [isPrefixOf_append_self]
  simp

/-! ## RemoteRefIndex (util/gitutil/ls_remote.go) -/

/-- Modelled from the spec: `gitutil.IsCommitSHA` is not under `src/`; the
spec describes a valid full commit SHA as 40 (lower-case) hex characters. -/
def isCommitSHA (s : Str) : Bool :=
  s.length == 40 && s.all (fun c => c.isDigit || ('a' ≤ c && c ≤ 'f'))

/-- `gitutil.Ref`. -/
structure GoRef where
  name : Str
  sha : Str
deriving DecidableEq, Repr

/-- `gitutil.Remote`. `Refs` and `RefMap` hold pointers to shared `Ref`
objects; a pointer is modelled as an index into an explicit heap of
allocated `Ref`s, because `Remote.lookup` writes through such a pointer.
`refMap` is an association list with Go-map semantics (the most recent
binding for a key wins, so lookups read the first matching entry; Go's
`nil` map reads as the empty list). -/
structure GoRemote where
  heap : List GoRef
  refs : List Nat
  refMap : List (Str × Nat)
  symrefs : List (Str × Str)
  head : Option GoRef
deriving DecidableEq, Repr

/-- Pointer dereference (every reachable address is a valid index). -/
def derefIn (heap : List GoRef) (a : Nat) : GoRef := heap.getD a ⟨[], []⟩

def GoRemote.deref (r : GoRemote) (a : Nat) : GoRef := derefIn r.heap a

/-- Go map read `m[k]` for the ref map. -/
def mapFind (m : List (Str × Nat)) (k : Str) : Option Nat :=
  (m.find? (fun p => p.1 == k)).map (fun p => p.2)

/-- Go map read `m[k]` for the symref map. -/
def symFind (m : List (Str × Str)) (k : Str) : Option Str :=
  (m.find? (fun p => p.1 == k)).map (fun p => p.2)

/-- `Remote.Get`: exact lookup in `RefMap`. -/
def GoRemote.get (r : GoRemote) (n : Str) : Option GoRef :=
  (mapFind r.refMap n).map r.deref

/-- The `Ref` values of the `Refs` slice, in order. -/
def GoRemote.refsList (r : GoRemote) : List GoRef := r.refs.map r.deref

/-- The names of the `Refs` slice, in order. -/
def GoRemote.refNames (r : GoRemote) : List Str := r.refsList.map GoRef.name

/-- Go `strings.Cut(line, sep)` for a one-character separator: split at the
first occurrence. -/
def cutOn (c : Char) : Str → Option (Str × Str)
  | [] => none
  | a :: as =>
    if a = c then some ([], as)
    else
      match cutOn c as with
      | some (l, rest) => some (a :: l, rest)
      | none => none

/-- One iteration of the parsing loop of `GitCLI.LsRemote`
(ls_remote.go lines 72-88): split the line on the first tab; a `ref: `
line records a symref, any other line allocates a `Ref` and appends it to
`Refs` and `RefMap`. -/
def parseLine (r : GoRemote) (line : Str) : GoRemote :=
  match cutOn '\t' line with
  | none => r
  | some (k, v) =>
    if (str "ref: ").isPrefixOf k then
      { r with symrefs := (v, k.drop 5) :: r.symrefs }
    else
      { r with
          heap := r.heap ++ [⟨v, k⟩]
          refs := r.refs ++ [r.heap.length]
          refMap := (v, r.heap.length) :: r.refMap }

/-- The ref-advertisement parsing of `GitCLI.LsRemote` (given the output
lines of the external `git ls-remote` call). -/
def lsRemoteParse (lines : List Str) : GoRemote :=
  lines.foldl parseLine ⟨[], [], [], [], none⟩

/-- `Remote.withRefs`: the derived remote shares `Symrefs` and `Head` (and
the heap) but leaves `RefMap` at its zero value — a nil map. -/
def GoRemote.withRefs (r : GoRemote) (refs : List Nat) : GoRemote :=
  { heap := r.heap, refs := refs, refMap := [], symrefs := r.symrefs, head := r.head }

/-- `Remote.Tags`: keep `refs/tags/` entries that do not end in the peeled
marker. -/
def GoRemote.tags (r : GoRemote) : GoRemote :=
  r.withRefs (r.refs.filter (fun a =>
    (str "refs/tags/").isPrefixOf (r.deref a).name
      && !((str "^\x7b\x7d").isSuffixOf (r.deref a).name)))

/-- `Remote.Branches`: keep `refs/heads/` entries. -/
def GoRemote.branches (r : GoRemote) : GoRemote :=
  r.withRefs (r.refs.filter (fun a => (str "refs/heads/").isPrefixOf (r.deref a).name))

/-- `Remote.Filter`; the glob matcher `gitTailMatch` is not under `src/`
and is abstracted as the parameter `tailMatch`. -/
def GoRemote.filterPat (r : GoRemote) (tailMatch : Str → Str → Bool)
    (patterns : List Str) : GoRemote :=
  if patterns = [] then r
  else r.withRefs (r.refs.filter (fun a => patterns.any (fun p => tailMatch p (r.deref a).name)))

/-- The loop of Go `sort.Search(n, f)` with explicit fuel; the interval
shrinks every iteration, so fuel `n` is enough for the `[0, n)` search. -/
def goSearchAux (f : Nat → Bool) : Nat → Nat → Nat → Nat
  | 0, i, _ => i
  | fuel + 1, i, j =>
    if i < j then
      if f ((i + j) / 2) then goSearchAux f fuel i ((i + j) / 2)
      else goSearchAux f fuel (((i + j) / 2) + 1) j
    else i

/-- Go `sort.Search(n, f)`. -/
def goSortSearch (n : Nat) (f : Nat → Bool) : Nat := goSearchAux f n 0 n

/-- `Remote.Add` (ls_remote.go lines 176-189): insert into `RefMap`,
append to `Refs`, binary-search the insertion point over the appended
slice and swap the appended element to that position. -/
def GoRemote.add (r : GoRemote) (name sha : Str) : GoRemote :=
  let addr := r.heap.length
  let heap := r.heap ++ [⟨name, sha⟩]
  let refs0 := r.refs ++ [addr]
  let j := r.refs.length
  let i := goSortSearch refs0.length
    (fun k => strGeB (derefIn heap (refs0.getD k 0)).name name)
  { heap := heap
    refs := if i ≠ j then (refs0.set i (refs0.getD j 0)).set j (refs0.getD i 0) else refs0
    refMap := (name, addr) :: r.refMap
    symrefs := r.symrefs
    head := r.head }

/-- Failures of `Remote.Lookup`. -/
inductive LookupErr where
  | notFound (target : Str) : LookupErr
  | invalidSHA (sha name : Str) : LookupErr
deriving DecidableEq, Repr

/-- The HEAD-override target replacement at the top of `Remote.lookup`. -/
def headTarget (head : Option GoRef) (target0 : Str) : Str :=
  match head with
  | some h => if target0 = str "HEAD" ∧ h.name ≠ [] then h.name else target0
  | none => target0

/-- The candidate-selection loop of `Remote.lookup` (line 231): the first
non-nil pointer in priority order. -/
def firstSome {α : Type} : List (Option α) → Option α
  | [] => none
  | some a :: _ => some a
  | none :: rest => firstSome rest

/-- `Remote.lookup` (ls_remote.go lines 208-258) as a state transformer.
The returned remote carries the write performed through the
`peeledTagRef` pointer (line 227: `peeledTagRef.Name = tagRefName`), which
happens before the match is cloned. `.ok none` is Go's `(nil, nil)`
"no match". -/
def GoRemote.lookupAux (r : GoRemote) (target0 : Str) :
    Except LookupErr (Option GoRef) × GoRemote :=
  let target := headTarget r.head target0
  if isCommitSHA target then (.ok (some ⟨[], target⟩), r)
  else
    let c1 := mapFind r.refMap target
    let c2 := mapFind r.refMap (str "refs/" ++ dropPfx target (str "refs/"))
    let c3 := mapFind r.refMap (str "refs/heads/" ++ dropPfx target (str "refs/heads/"))
    let tagKey := str "refs/tags/" ++ dropPfx target (str "refs/tags/")
    let c4 := mapFind r.refMap tagKey
    let c5 := mapFind r.refMap (tagKey ++ str "^\x7b\x7d")
    let heap2 :=
      match c5 with
      | some a => r.heap.set a ⟨tagKey, (derefIn r.heap a).sha⟩
      | none => r.heap
    let r2 := { r with heap := heap2 }
    match firstSome [c1, c2, c3, c4, c5] with
    | none => (.ok none, r2)
    | some a =>
      let m := derefIn heap2 a
      if !(isCommitSHA m.sha) then (.error (.invalidSHA m.sha m.name), r2)
      else
        let m2 :=
          match symFind r.symrefs m.name with
          | some tgt => { m with name := tgt }
          | none => m
        let m3 :=
          match r.head with
          | some h => if target0 = str "HEAD" ∧ h.sha ≠ [] then { m2 with sha := h.sha } else m2
          | none => m2
        (.ok (some m3), r2)

/-- `Remote.Lookup`: `lookup` with the nil result turned into the
not-found failure. -/
def GoRemote.lookupRef (r : GoRemote) (target : Str) : Except LookupErr GoRef × GoRemote :=
  match r.lookupAux target with
  | (.error e, r2) => (.error e, r2)
  | (.ok none, r2) => (.error (.notFound target), r2)
  | (.ok (some m), r2) => (.ok m, r2)

/-! ### Heap and map helper lemmas -/

theorem derefIn_append {heap : List GoRef} {a : Nat} (x : GoRef) (h : a < heap.length) :
    derefIn (heap ++ [x]) a = derefIn heap a := by
  unfold derefIn
  rw [List.getD_eq_getElem?_getD, List.getD_eq_getElem?_getD, List.getElem?_append_left h]

theorem derefIn_append_self (heap : List GoRef) (x : GoRef) :
    derefIn (heap ++ [x]) heap.length = x := by
  unfold derefIn
  rw [List.getD_eq_getElem?_getD, List.getElem?_concat_length]
  rfl

theorem natGetD_append_self (l : List Nat) (x : Nat) : (l ++ [x]).getD l.length 0 = x := by
  rw [List.getD_eq_getElem?_getD, List.getElem?_concat_length]
  rfl

theorem mapFind_cons (k0 : Str) (a0 : Nat) (m : List (Str × Nat)) (n : Str) :
    mapFind ((k0, a0) :: m) n = if k0 == n then some a0 else mapFind m n := by
  unfold mapFind
  cases h : k0 == n <;> simp [List.find?, h]

theorem mapFind_mem_key {m : List (Str × Nat)} {k : Str} {a : Nat}
    (h : mapFind m k = some a) : (k, a) ∈ m := by
  unfold mapFind at h
  cases hf : m.find? (fun p => p.1 == k) with
  | none => rw [hf] at h; simp at h
  | some p =>
    rw [hf] at h
    simp at h
    have hm := List.mem_of_find?_eq_some hf
    have hp := List.find?_some hf
    have hk : p.1 = k := by simpa using hp
    obtain ⟨p1, p2⟩ := p
    simp only at hk h
    rw [hk, h] at hm
    exact hm

/-- RefMap/Refs synchronization invariant maintained by parsing and `Add`:
every `Refs` address is valid and its ref's name is in the map; every map
binding is a valid address into `Refs` whose ref carries the binding's
key as its name. -/
def GoRemote.Inv (r : GoRemote) : Prop :=
  (∀ a ∈ r.refs, a < r.heap.length ∧ (mapFind r.refMap (derefIn r.heap a).name).isSome = true)
    ∧ (∀ p ∈ r.refMap, p.2 < r.heap.length ∧ p.2 ∈ r.refs ∧ (derefIn r.heap p.2).name = p.1)

instance (r : GoRemote) : Decidable r.Inv := by
  unfold GoRemote.Inv
  infer_instance

theorem inv_get_iff {r : GoRemote} (h : r.Inv) (n : Str) :
    (r.get n).isSome = true ↔ n ∈ r.refNames := by
  unfold GoRemote.refNames GoRemote.refsList
  rw [List.map_map]
  constructor
  · intro hg
    unfold GoRemote.get at hg
    rw [Option.isSome_map'] at hg
    obtain ⟨a, hma⟩ := Option.isSome_iff_exists.mp hg
    obtain ⟨_, hmem, hname⟩ := h.2 (n, a) (mapFind_mem_key hma)
    exact List.mem_map.mpr ⟨a, hmem, hname⟩
  · intro hn
    obtain ⟨a, hmem, hname⟩ := List.mem_map.mp hn
    have hsome := (h.1 a hmem).2
    unfold GoRemote.get
    rw [Option.isSome_map']
    simp only [Function.comp, GoRemote.deref] at hname
    rw [← hname]
    exact hsome

theorem inv_get_sound {r : GoRemote} (h : r.Inv) {n : Str} {ref : GoRef}
    (hg : r.get n = some ref) : ref ∈ r.refsList ∧ ref.name = n := by
  unfold GoRemote.get at hg
  cases hma : mapFind r.refMap n with
  | none => rw [hma] at hg; simp at hg
  | some a =>
    rw [hma] at hg
    simp only [Option.map_some'] at hg
    have hg' : r.deref a = ref := Option.some.inj hg
    obtain ⟨_, hmem, hname⟩ := h.2 (n, a) (mapFind_mem_key hma)
    refine ⟨List.mem_map.mpr ⟨a, hmem, hg'⟩, ?_⟩
    rw [← hg']
    exact hname

theorem inv_parseLine {r : GoRemote} (line : Str) (h : r.Inv) : (parseLine r line).Inv := by
  unfold parseLine
  cases hc : cutOn '\t' line with
  | none => exact h
  | some kv =>
    obtain ⟨k, v⟩ := kv
    cases hpre : (str "ref: ").isPrefixOf k with
    | true => simpa [hpre] using h
    | false =>
      simp only [hpre, Bool.false_eq_true, if_false]
      constructor
      · intro a ha
        rw [List.mem_append] at ha
        rcases ha with ha | ha
        · obtain ⟨hlt, hsome⟩ := h.1 a ha
          refine ⟨by simp [List.length_append]; omega, ?_⟩
          rw [derefIn_append _ hlt, mapFind_cons]
          cases v == (derefIn r.heap a).name <;> simp [hsome]
        · have ha' : a = r.heap.length := by simpa using ha
          subst ha'
          refine ⟨by simp [List.length_append], ?_⟩
          rw [derefIn_append_self, mapFind_cons]
          simp
      · intro p hp
        rcases List.mem_cons.mp hp with hp | hp
        · subst hp
          refine ⟨by simp [List.length_append], by simp, ?_⟩
          rw [derefIn_append_self]
        · obtain ⟨hlt, hmem, hname⟩ := h.2 p hp
          refine ⟨by simp [List.length_append]; omega, by simp [hmem], ?_⟩
          rw [derefIn_append _ hlt]
          exact hname

theorem inv_parse (lines : List Str) : (lsRemoteParse lines).Inv := by
  have main : ∀ (ls : List Str) (r : GoRemote), r.Inv → (ls.foldl parseLine r).Inv := by
    intro ls
    induction ls with
    | nil => intro r h; exact h
    | cons l rest ih => intro r h; exact ih (parseLine r l) (inv_parseLine l h)
  exact main _ ⟨[], [], [], [], none⟩ (by decide)

theorem strLtB_irrefl (s : Str) : strLtB s s = false := by
  induction s with
  | nil => rfl
  | cons a as ih =>
    unfold strLtB
    rw [if_neg (lt_irrefl a), if_pos rfl]
    exact ih

theorem strGeB_self (s : Str) : strGeB s s = true := by
  unfold strGeB
  rw [strLtB_irrefl]
  rfl

theorem goSearchAux_bounds (f : Nat → Bool) :
    ∀ (fuel i j : Nat), i ≤ j → i ≤ goSearchAux f fuel i j ∧ goSearchAux f fuel i j ≤ j := by
  intro fuel
  induction fuel with
  | zero => intro i j h; exact ⟨Nat.le_refl i, h⟩
  | succ fuel ih =>
    intro i j h
    unfold goSearchAux
    by_cases hij : i < j
    · rw [if_pos hij]
      by_cases hf : f ((i + j) / 2) = true
      · rw [if_pos hf]
        obtain ⟨ha, hb⟩ := ih i ((i + j) / 2) (by omega)
        exact ⟨ha, by omega⟩
      · rw [if_neg hf]
        obtain ⟨ha, hb⟩ := ih ((i + j) / 2 + 1) j (by omega)
        exact ⟨by omega, hb⟩
    · rw [if_neg hij]
      exact ⟨Nat.le_refl i, h⟩

theorem goSearchAux_lt (f : Nat → Bool) (n : Nat) :
    ∀ (fuel i j : Nat), i < j → j ≤ n → (j = n → f (n - 1) = true) → j - i ≤ fuel →
      goSearchAux f fuel i j < n := by
  intro fuel
  induction fuel with
  | zero => intro i j hij hjn hfn hfuel; omega
  | succ fuel ih =>
    intro i j hij hjn hfn hfuel
    unfold goSearchAux
    rw [if_pos hij]
    by_cases hf : f ((i + j) / 2) = true
    · rw [if_pos hf]
      have hb := (goSearchAux_bounds f fuel i ((i + j) / 2) (by omega)).2
      omega
    · rw [if_neg hf]
      by_cases hlt : (i + j) / 2 + 1 < j
      · exact ih ((i + j) / 2 + 1) j hlt hjn hfn (by omega)
      · have hej : (i + j) / 2 + 1 = j := by omega
        have hres := goSearchAux_bounds f fuel ((i + j) / 2 + 1) j (by omega)
        have hjn' : j < n := by
          rcases Nat.lt_or_ge j n with hc | hc
          · exact hc
          · have hjeq : j = n := by omega
            have hmid : (i + j) / 2 = n - 1 := by omega
            rw [hmid] at hf
            exact absurd (hfn hjeq) hf
        omega

theorem natGetD_mem (l : List Nat) {i : Nat} (h : i < l.length) : l.getD i 0 ∈ l := by
  rw [List.getD_eq_getElem?_getD, List.getElem?_eq_getElem h]
  exact List.getElem_mem h

theorem mem_swap_iff (l : List Nat) {i j : Nat} (hi : i < l.length) (hj : j < l.length)
    (x : Nat) : (x ∈ (l.set i (l.getD j 0)).set j (l.getD i 0)) ↔ x ∈ l := by
  constructor
  · intro hx
    rcases List.mem_or_eq_of_mem_set hx with hx | hx
    · rcases List.mem_or_eq_of_mem_set hx with hx | hx
      · exact hx
      · rw [hx]; exact natGetD_mem l hj
    · rw [hx]; exact natGetD_mem l hi
  · intro hx
    obtain ⟨k, hk, hkx⟩ := List.mem_iff_getElem.mp hx
    rw [List.mem_iff_getElem?]
    by_cases hki : k = i
    · subst hki
      refine ⟨j, ?_⟩
      rw [List.getElem?_set_self (by rw [List.length_set]; exact hj)]
      rw [List.getD_eq_getElem?_getD, List.getElem?_eq_getElem hk]
      simp [hkx]
    · by_cases hkj : k = j
      · subst hkj
        refine ⟨i, ?_⟩
        rw [List.getElem?_set_ne hki, List.getElem?_set_self hi]
        rw [List.getD_eq_getElem?_getD, List.getElem?_eq_getElem hk]
        simp [hkx]
      · refine ⟨k, ?_⟩
        rw [List.getElem?_set_ne (fun hjk => hkj hjk.symm),
          List.getElem?_set_ne (fun hik => hki hik.symm),
          List.getElem?_eq_getElem hk]
        simp [hkx]

theorem inv_add {r : GoRemote} (name sha : Str) (h : r.Inv) : (r.add name sha).Inv := by
  have hflast : (fun k => strGeB
      (derefIn (r.heap ++ [⟨name, sha⟩]) ((r.refs ++ [r.heap.length]).getD k 0)).name name)
      ((r.refs ++ [r.heap.length]).length - 1) = true := by
    have hlen : (r.refs ++ [r.heap.length]).length = r.refs.length + 1 := by
      simp [List.length_append]
    rw [hlen]
    simp only [Nat.add_sub_cancel]
    rw [natGetD_append_self, derefIn_append_self]
    exact strGeB_self name
  have hlen0 : 0 < (r.refs ++ [r.heap.length]).length := by simp [List.length_append]
  have hi_lt : goSortSearch (r.refs ++ [r.heap.length]).length
      (fun k => strGeB
        (derefIn (r.heap ++ [⟨name, sha⟩]) ((r.refs ++ [r.heap.length]).getD k 0)).name name)
      < (r.refs ++ [r.heap.length]).length := by
    unfold goSortSearch
    exact goSearchAux_lt _ _ _ 0 _ hlen0 (Nat.le_refl _) (fun _ => hflast) (by omega)
  have hj_lt : r.refs.length < (r.refs ++ [r.heap.length]).length := by
    simp [List.length_append]
  simp only [GoRemote.add]
  have hmem_iff : ∀ x, (x ∈
      (if goSortSearch (r.refs ++ [r.heap.length]).length
          (fun k => strGeB
            (derefIn (r.heap ++ [⟨name, sha⟩]) ((r.refs ++ [r.heap.length]).getD k 0)).name name)
          ≠ r.refs.length then
        ((r.refs ++ [r.heap.length]).set
            (goSortSearch (r.refs ++ [r.heap.length]).length
              (fun k => strGeB
                (derefIn (r.heap ++ [⟨name, sha⟩])
                  ((r.refs ++ [r.heap.length]).getD k 0)).name name))
            ((r.refs ++ [r.heap.length]).getD r.refs.length 0)).set
          r.refs.length
          ((r.refs ++ [r.heap.length]).getD
            (goSortSearch (r.refs ++ [r.heap.length]).length
              (fun k => strGeB
                (derefIn (r.heap ++ [⟨name, sha⟩])
                  ((r.refs ++ [r.heap.length]).getD k 0)).name name)) 0)
      else r.refs ++ [r.heap.length])) ↔ x ∈ r.refs ++ [r.heap.length] := by
    intro x
    by_cases hij : goSortSearch (r.refs ++ [r.heap.length]).length
        (fun k => strGeB
          (derefIn (r.heap ++ [⟨name, sha⟩]) ((r.refs ++ [r.heap.length]).getD k 0)).name name)
        ≠ r.refs.length
    · rw [if_pos hij]
      exact mem_swap_iff _ hi_lt hj_lt x
    · rw [if_neg hij]
  constructor
  · intro a ha
    have ha0 : a ∈ r.refs ++ [r.heap.length] := (hmem_iff a).mp ha
    rw [List.mem_append] at ha0
    rcases ha0 with ha0 | ha0
    · obtain ⟨hlt, hsome⟩ := h.1 a ha0
      refine ⟨by simp [List.length_append]; omega, ?_⟩
      rw [derefIn_append _ hlt, mapFind_cons]
      cases name == (derefIn r.heap a).name <;> simp [hsome]
    · have ha' : a = r.heap.length := by simpa using ha0
      subst ha'
      refine ⟨by simp [List.length_append], ?_⟩
      rw [derefIn_append_self, mapFind_cons]
      simp
  · intro p hp
    rcases List.mem_cons.mp hp with hp | hp
    · subst hp
      refine ⟨by simp [List.length_append], ?_, ?_⟩
      · exact (hmem_iff r.heap.length).mpr (by simp)
      · rw [derefIn_append_self]
    · obtain ⟨hlt, hmem, hname⟩ := h.2 p hp
      refine ⟨by simp [List.length_append]; omega, ?_, ?_⟩
      · exact (hmem_iff p.2).mpr (by simp [hmem])
      · rw [derefIn_append _ hlt]
        exact hname

/-! ### String lemmas for the checkout-semantics proof -/

theorem append_ne_self_of_ne_nil (s t : Str) (ht : t ≠ []) : s ≠ s ++ t := by
  intro h
  have hl := congrArg List.length h
  rw [List.length_append] at hl
  have hz : t.length = 0 := by omega
  exact ht (List.length_eq_zero.mp hz)

theorem pfx_drop {p s : Str} (h : p.isPrefixOf s = true) : p ++ s.drop p.length = s := by
  induction p generalizing s with
  | nil => simp
  | cons a as ih =>
    cases s with
    | nil => simp at h
    | cons b bs =>
      rw [List.isPrefixOf_cons₂, Bool.and_eq_true] at h
      obtain ⟨hab, hpre⟩ := h
      have hab' : a = b := by simpa using hab
      subst hab'
      simp only [List.cons_append, List.length_cons, List.drop_succ_cons]
      rw [ih hpre]

theorem dropPfx_of_pfx {p s : Str} (h : p.isPrefixOf s = true) : p ++ dropPfx s p = s := by
  unfold dropPfx
  rw [if_pos h]
  exact pfx_drop h

theorem dropPfx_of_not_pfx {p s : Str} (h : ¬p.isPrefixOf s = true) : dropPfx s p = s := by
  unfold dropPfx
  rw [if_neg h]

theorem tagKey_ne_peeled (t : Str) :
    str "refs/tags/" ++ dropPfx t (str "refs/tags/") ≠
      (str "refs/tags/" ++ dropPfx t (str "refs/tags/")) ++ str "^\x7b\x7d" :=
  append_ne_self_of_ne_nil _ _ (by decide)

theorem target_ne_peeled (t : Str) :
    t ≠ (str "refs/tags/" ++ dropPfx t (str "refs/tags/")) ++ str "^\x7b\x7d" := by
  by_cases hp : (str "refs/tags/").isPrefixOf t = true
  · rw [dropPfx_of_pfx hp]
    exact append_ne_self_of_ne_nil _ _ (by decide)
  · rw [dropPfx_of_not_pfx hp]
    intro h
    apply hp
    rw [h, List.append_assoc]
    exact isPrefixOf_append_self _ _

theorem slash_ne_peeled (t : Str) :
    str "refs/" ++ dropPfx t (str "refs/") ≠
      (str "refs/tags/" ++ dropPfx t (str "refs/tags/")) ++ str "^\x7b\x7d" := by
  by_cases hpt : (str "refs/tags/").isPrefixOf t = true
  · have ht := dropPfx_of_pfx hpt
    have hpr : (str "refs/").isPrefixOf t = true := by
      rw [← ht]
      have hsplit : str "refs/tags/" = str "refs/" ++ str "tags/" := by decide
      rw [hsplit, List.append_assoc]
      exact isPrefixOf_append_self _ _
    rw [dropPfx_of_pfx hpr, dropPfx_of_pfx hpt]
    exact append_ne_self_of_ne_nil _ _ (by decide)
  · rw [dropPfx_of_not_pfx hpt]
    by_cases hpr : (str "refs/").isPrefixOf t = true
    · rw [dropPfx_of_pfx hpr]
      intro h
      apply hpt
      rw [h, List.append_assoc]
      exact isPrefixOf_append_self _ _
    · rw [dropPfx_of_not_pfx hpr]
      intro h
      have hl := congrArg List.length h
      have h5 : (str "refs/").length = 5 := by decide
      have h10 : (str "refs/tags/").length = 10 := by decide
      have h3 : (str "^\x7b\x7d").length = 3 := by decide
      rw [List.length_append, List.length_append, List.length_append, h5, h10, h3] at hl
      omega

theorem heads_ne_peeled (t : Str) :
    str "refs/heads/" ++ dropPfx t (str "refs/heads/") ≠
      (str "refs/tags/" ++ dropPfx t (str "refs/tags/")) ++ str "^\x7b\x7d" := by
  intro h
  have hh : str "refs/heads/" = str "refs/" ++ 'h' :: str "eads/" := by decide
  have ht : str "refs/tags/" = str "refs/" ++ 't' :: str "ags/" := by decide
  rw [hh, ht] at h
  simp only [List.append_assoc, List.cons_append] at h
  have h2 := List.append_cancel_left h
  exact absurd (List.cons.inj h2).1 (by decide)

/-! ### Pointer-update lemmas -/

theorem derefIn_set_ne (heap : List GoRef) {a b : Nat} (x : GoRef) (h : b ≠ a) :
    derefIn (heap.set b x) a = derefIn heap a := by
  unfold derefIn
  rw [List.getD_eq_getElem?_getD, List.getD_eq_getElem?_getD, List.getElem?_set_ne h]

theorem derefIn_set_self {heap : List GoRef} {a : Nat} (x : GoRef) (h : a < heap.length) :
    derefIn (heap.set a x) a = x := by
  unfold derefIn
  rw [List.getD_eq_getElem?_getD, List.getElem?_set_self h]
  rfl

/-! ### Checkout-semantics claim (C2) -/

/-- Well-formedness for the checkout-semantics theorem: every map binding
is in range, keyed by its ref's stored name, and carries a well-formed
commit SHA — as holds for a freshly parsed well-formed advertisement. -/
def GoRemote.WfMap (r : GoRemote) : Prop :=
  ∀ p ∈ r.refMap, p.2 < r.heap.length ∧ (derefIn r.heap p.2).name = p.1
    ∧ isCommitSHA (derefIn r.heap p.2).sha = true

instance (r : GoRemote) : Decidable r.WfMap := by
  unfold GoRemote.WfMap
  infer_instance

theorem wfMap_find {r : GoRemote} (hw : r.WfMap) {k : Str} {a : Nat}
    (h : mapFind r.refMap k = some a) :
    a < r.heap.length ∧ (derefIn r.heap a).name = k
      ∧ isCommitSHA (derefIn r.heap a).sha = true :=
  hw (k, a) (mapFind_mem_key h)

/-- The checkout-style lookup algorithm exactly as claim C2 words it,
defined from the claim's words (not the source) for refinement comparison
with `GoRemote.lookupRef`: SHA short-circuit; otherwise priority matching
on the literal name, `refs/…`, `refs/heads/…`, `refs/tags/…`; then the
peeled variant, returned under the un-peeled tag name with the peeled
entry's SHA; no match is a not-found failure. -/
def checkoutLookupClaim (r : GoRemote) (target : Str) : Except LookupErr GoRef :=
  if isCommitSHA target then .ok ⟨[], target⟩
  else
    match firstSome [r.get target,
        r.get (str "refs/" ++ dropPfx target (str "refs/")),
        r.get (str "refs/heads/" ++ dropPfx target (str "refs/heads/")),
        r.get (str "refs/tags/" ++ dropPfx target (str "refs/tags/"))] with
    | some m => .ok m
    | none =>
      match r.get ((str "refs/tags/" ++ dropPfx target (str "refs/tags/")) ++ str "^\x7b\x7d") with
      | some m => .ok ⟨str "refs/tags/" ++ dropPfx target (str "refs/tags/"), m.sha⟩
      | none => .error (.notFound target)

theorem headTarget_of_ne {hd : Option GoRef} {t : Str} (h : t ≠ str "HEAD") :
    headTarget hd t = t := by
  cases hd with
  | none => rfl
  | some x => exact if_neg (fun hc => h hc.1)

theorem sha_ne_head {t : Str} (h : isCommitSHA t = true) : t ≠ str "HEAD" := by
  intro he
  rw [he] at h
  exact absurd h (by decide)

theorem symFind_nil (k : Str) : symFind [] k = none := rfl

/-- C2: `Remote.Lookup` implements the checkout-style reference
algorithm: a valid full commit SHA short-circuits to `(Name:"", SHA:target)`
without consulting the ref map (for every remote); otherwise the priority
order is literal name, `refs/…`, `refs/heads/…`, `refs/tags/…` (branches
preferred over tags), then the peeled variant, which is returned under the
un-peeled tag name with the peeled entry's SHA; no match at any priority
is a not-found failure. Stated for remotes with no HEAD override and no
symrefs (the claim describes neither) whose map is well-formed as produced
by parsing. -/
theorem c2_lookup_checkout_semantics (r : GoRemote) (t : Str)
    (hh : r.head = none) (hs : r.symrefs = []) (hw : r.WfMap) :
    (isCommitSHA t = true → ∀ r2 : GoRemote, r2.lookupRef t = (.ok ⟨[], t⟩, r2))
    ∧ (r.lookupRef t).1 = checkoutLookupClaim r t := by
  have main1 : isCommitSHA t = true → ∀ r2 : GoRemote, r2.lookupRef t = (.ok ⟨[], t⟩, r2) := by
    intro hsha r2
    have hht : headTarget r2.head t = t := headTarget_of_ne (sha_ne_head hsha)
    unfold GoRemote.lookupRef GoRemote.lookupAux
    rw [hht, if_pos hsha]
  refine ⟨main1, ?_⟩
  by_cases hsha : isCommitSHA t = true
  · rw [main1 hsha r]
    unfold checkoutLookupClaim
    rw [if_pos hsha]
  · have hht : headTarget r.head t = t := by rw [hh]; rfl
    unfold GoRemote.lookupRef GoRemote.lookupAux checkoutLookupClaim GoRemote.get
    rw [hht, if_neg hsha, if_neg hsha]
    cases hc1 : mapFind r.refMap t with
    | some a1 =>
      obtain ⟨hlt1, hname1, hvsha1⟩ := wfMap_find hw hc1
      simp only [firstSome, Option.map_some']
      cases hc5 : mapFind r.refMap
          ((str "refs/tags/" ++ dropPfx t (str "refs/tags/")) ++ str "^\x7b\x7d") with
      | none =>
        simp only [hs, symFind_nil, hh, hvsha1, Bool.not_true, Bool.false_eq_true, if_false]
        rfl
      | some pa =>
        obtain ⟨hltp, hnamep, hvshap⟩ := wfMap_find hw hc5
        have hne : pa ≠ a1 := fun he =>
          absurd (hname1.symm.trans (he ▸ hnamep)) (target_ne_peeled t)
        rw [derefIn_set_ne _ _ hne]
        simp only [hs, symFind_nil, hh, hvsha1, Bool.not_true, Bool.false_eq_true, if_false]
        rfl
    | none =>
      simp only [firstSome]
      cases hc2 : mapFind r.refMap (str "refs/" ++ dropPfx t (str "refs/")) with
      | some a2 =>
        obtain ⟨hlt2, hname2, hvsha2⟩ := wfMap_find hw hc2
        simp only [firstSome, Option.map_some']
        cases hc5 : mapFind r.refMap
            ((str "refs/tags/" ++ dropPfx t (str "refs/tags/")) ++ str "^\x7b\x7d") with
        | none =>
          simp only [hs, symFind_nil, hh, hvsha2, Bool.not_true, Bool.false_eq_true, if_false]
          rfl
        | some pa =>
          obtain ⟨hltp, hnamep, hvshap⟩ := wfMap_find hw hc5
          have hne : pa ≠ a2 := fun he =>
            absurd (hname2.symm.trans (he ▸ hnamep)) (slash_ne_peeled t)
          rw [derefIn_set_ne _ _ hne]
          simp only [hs, symFind_nil, hh, hvsha2, Bool.not_true, Bool.false_eq_true, if_false]
          rfl
      | none =>
        simp only [firstSome]
        cases hc3 : mapFind r.refMap (str "refs/heads/" ++ dropPfx t (str "refs/heads/")) with
        | some a3 =>
          obtain ⟨hlt3, hname3, hvsha3⟩ := wfMap_find hw hc3
          simp only [firstSome, Option.map_some']
          cases hc5 : mapFind r.refMap
              ((str "refs/tags/" ++ dropPfx t (str "refs/tags/")) ++ str "^\x7b\x7d") with
          | none =>
            simp only [hs, symFind_nil, hh, hvsha3, Bool.not_true, Bool.false_eq_true, if_false]
            rfl
          | some pa =>
            obtain ⟨hltp, hnamep, hvshap⟩ := wfMap_find hw hc5
            have hne : pa ≠ a3 := fun he =>
              absurd (hname3.symm.trans (he ▸ hnamep)) (heads_ne_peeled t)
            rw [derefIn_set_ne _ _ hne]
            simp only [hs, symFind_nil, hh, hvsha3, Bool.not_true, Bool.false_eq_true, if_false]
            rfl
        | none =>
          simp only [firstSome]
          cases hc4 : mapFind r.refMap (str "refs/tags/" ++ dropPfx t (str "refs/tags/")) with
          | some a4 =>
            obtain ⟨hlt4, hname4, hvsha4⟩ := wfMap_find hw hc4
            simp only [firstSome, Option.map_some']
            cases hc5 : mapFind r.refMap
                ((str "refs/tags/" ++ dropPfx t (str "refs/tags/")) ++ str "^\x7b\x7d") with
            | none =>
              simp only [hs, symFind_nil, hh, hvsha4, Bool.not_true, Bool.false_eq_true, if_false]
              rfl
            | some pa =>
              obtain ⟨hltp, hnamep, hvshap⟩ := wfMap_find hw hc5
              have hne : pa ≠ a4 := fun he =>
                absurd (hname4.symm.trans (he ▸ hnamep)) (tagKey_ne_peeled t)
              rw [derefIn_set_ne _ _ hne]
              simp only [hs, symFind_nil, hh, hvsha4, Bool.not_true, Bool.false_eq_true, if_false]
              rfl
          | none =>
            simp only [firstSome]
            cases hc5 : mapFind r.refMap
                ((str "refs/tags/" ++ dropPfx t (str "refs/tags/")) ++ str "^\x7b\x7d") with
            | none =>
              simp only [firstSome, Option.map_none']
            | some pa =>
              obtain ⟨hltp, hnamep, hvshap⟩ := wfMap_find hw hc5
              simp only [firstSome, Option.map_some']
              rw [derefIn_set_self _ hltp]
              simp only [hs, symFind_nil, hh, hvshap, Bool.not_true, Bool.false_eq_true, if_false]
              rfl

/-- A 40-hex commit SHA (all `a`). -/
def wSha1 : Str := List.replicate 40 'a'

/-- A 40-hex commit SHA (all `b`). -/
def wSha2 : Str := List.replicate 40 'b'

/-- A 40-hex commit SHA (all `c`). -/
def wSha3 : Str := List.replicate 40 'c'

/-- A 40-hex commit SHA (all `d`). -/
def wSha4 : Str := List.replicate 40 'd'

/-- A remote parsed from an advertisement with a branch, an annotated tag
and the tag's peeled entry. -/
def egRemote : GoRemote := lsRemoteParse
  [wSha1 ++ str "\t" ++ str "refs/heads/main",
   wSha2 ++ str "\t" ++ str "refs/tags/v1.0.0",
   wSha3 ++ str "\t" ++ str "refs/tags/v1.0.0^\x7b\x7d"]

/-- A remote parsed from a sorted advertisement of three branches `a`,
`c`, `e`. -/
def egSorted : GoRemote := lsRemoteParse
  [wSha1 ++ str "\t" ++ str "refs/heads/a",
   wSha2 ++ str "\t" ++ str "refs/heads/c",
   wSha3 ++ str "\t" ++ str "refs/heads/e"]

/-- C3 (code bug): starting from a sorted remote `[a, c, e]`,
`Add("refs/heads/b", …)` appends the new ref and then swaps it with the
element at the binary-search insertion point instead of inserting, leaving
`Refs` as `[a, b, e, c]` — not in non-decreasing name order. -/
theorem c3_add_swap_breaks_sort :
    sortedB egSorted.refNames = true
    ∧ (egSorted.add (str "refs/heads/b") wSha4).refNames
        = [str "refs/heads/a", str "refs/heads/b", str "refs/heads/e", str "refs/heads/c"]
    ∧ sortedB ((egSorted.add (str "refs/heads/b") wSha4).refNames) = false := by
  decide

/-- C8 (code bug): `Lookup("v1.0.0")` on a remote holding a peeled tag
entry renames the stored peeled `Ref` in place (its `Name` changes from
`refs/tags/v1.0.0^..` to `refs/tags/v1.0.0`) before the match is cloned,
so the `Remote` observably differs after the call. -/
theorem c8_lookup_mutates_peeled_ref :
    (egRemote.lookupRef (str "v1.0.0")).2 ≠ egRemote
    ∧ egRemote.refNames =
        [str "refs/heads/main", str "refs/tags/v1.0.0", str "refs/tags/v1.0.0^\x7b\x7d"]
    ∧ ((egRemote.lookupRef (str "v1.0.0")).2).refNames =
        [str "refs/heads/main", str "refs/tags/v1.0.0", str "refs/tags/v1.0.0"] := by
  decide

/-- C7 counterexample: on the derived remote produced by `Tags()`, the tag
name appears in `Refs` but `Get` fails for it — `withRefs` leaves `RefMap`
nil, so derived remotes are not in sync. -/
theorem c7_tags_refmap_desync :
    (str "refs/tags/v1.0.0") ∈ (egRemote.tags).refNames
    ∧ (egRemote.tags).get (str "refs/tags/v1.0.0") = none := by
  decide

/-- C7 amended: `RefMap` is in sync with `Refs` for remotes built by
parsing an advertisement, and `Add` preserves the sync (under the sync
invariant, `Get(name)` succeeds for precisely the names appearing in
`Refs`, returning a ref of `Refs` carrying that name); but the derived
remotes produced by `Tags`, `Branches` and `Filter` with a non-empty
pattern list carry an empty (nil) `RefMap`, so `Get` fails on them for
every name. -/
theorem c7_refmap_sync_amended :
    (∀ lines : List Str, (lsRemoteParse lines).Inv)
    ∧ (∀ (r : GoRemote) (name sha : Str), r.Inv → (r.add name sha).Inv)
    ∧ (∀ r : GoRemote, r.Inv →
        ∀ n : Str, ((r.get n).isSome = true ↔ n ∈ r.refNames)
          ∧ (∀ ref, r.get n = some ref → ref ∈ r.refsList ∧ ref.name = n))
    ∧ (∀ (r : GoRemote) (n : Str), (r.tags).get n = none ∧ (r.branches).get n = none)
    ∧ (∀ (r : GoRemote) (tm : Str → Str → Bool) (pats : List Str), pats ≠ [] →
        ∀ n : Str, (r.filterPat tm pats).get n = none) := by
  refine ⟨inv_parse, fun r name sha h => inv_add name sha h,
    fun r h n => ⟨inv_get_iff h n, fun ref hg => inv_get_sound h hg⟩,
    fun r n => ⟨rfl, rfl⟩, fun r tm pats hne n => ?_⟩
  unfold GoRemote.filterPat
  rw [if_neg hne]
  rfl

/-- Concrete witness for the amended C7: the parsed example remote
satisfies the sync invariant, and `Get` succeeds exactly on its `Refs`
names. -/
theorem c7_witness :
    ((egRemote.get (str "refs/tags/v1.0.0")).isSome = true ↔
      (str "refs/tags/v1.0.0") ∈ egRemote.refNames) :=
  (c7_refmap_sync_amended.2.2.1 egRemote (by decide) (str "refs/tags/v1.0.0")).1

/-! ## CanonicalDigestComputer (schema/git.go, `computeCanonicalRepoDigest`) -/

/-- Modelled from the spec: `hashutil.HashStrings` is not under `src/`; the
spec describes it as a deterministic hash of an ordered tuple of strings.
Modelled as a 64-bit polynomial rolling hash with a separator between parts.
Only determinism and dependence on exactly the part list matter here. -/
def hashChar (h : Nat) (c : Char) : Nat := (h * 131 + c.toNat) % (2 ^ 64)

/-- Hashes one part into the accumulator, separated from the previous part. -/
def hashPart (h : Nat) (s : Str) : Nat := s.foldl hashChar ((h * 131 + 2) % (2 ^ 64))

/-- Modelled from the spec: hash of an ordered tuple of strings
(`hashutil.HashStrings`). -/
def hashStrings (parts : List Str) : Nat := parts.foldl hashPart 5381

/-- Modelled from the spec: `gitutil.GitURL` is not under `src/`. Only the
fields the git schema reads are modelled: scheme, optional user, host, path. -/
structure GitURL where
  scheme : Str
  user : Option Str
  host : Str
  path : Str
deriving DecidableEq, Repr

/-- Modelled from the spec: `GitURL.Remote()` — the canonical remote URL
string of a parsed URL (host followed by path). -/
def urlRemote (u : GitURL) : Str := u.host ++ u.path

/-- `core.RemoteGitRepository`, restricted to the fields the git schema
reads. Credential material (socket, token and header secrets) is modelled as
the identity strings the Go code stores; `none` means the `dagql.Optional`
is not set (`Valid == false`). -/
structure RemoteGitRepository where
  url : Option GitURL
  sshKnownHosts : Str
  sshAuthSocket : Option Str
  authUsername : Str
  authToken : Option Str
  authHeader : Option Str
  services : List Str
deriving DecidableEq, Repr

/-- The ordered part list built by `gitSchema.computeCanonicalRepoDigest`
(src/unnamed/part_000 lines 925-953). -/
def canonicalRepoParts (remote : RemoteGitRepository) (discardGitDir : Bool) : List Str :=
  [str "gitrepo/v1"]
    ++ (match remote.url with
        | some u => [urlRemote u]
        | none => [])
    ++ (if remote.sshAuthSocket.isSome then [str "sshAuthSock:true"] else [])
    ++ (if remote.authToken.isSome then [str "authToken:true"] else [])
    ++ (if remote.authHeader.isSome then [str "authHeader:true"] else [])
    ++ (if remote.authUsername = [] then [] else [str "authUsername:" ++ remote.authUsername])
    ++ (if discardGitDir then [str "discardGitDir"] else [])

/-- `gitSchema.computeCanonicalRepoDigest`. -/
def computeCanonicalRepoDigest (remote : RemoteGitRepository) (discardGitDir : Bool) : Nat :=
  hashStrings (canonicalRepoParts remote discardGitDir)

/-- C1: the canonical repository digest depends only on the canonical remote
URL, the boolean markers for which auth methods are set, the literal auth
username, and the discardGitDir flag — never on the credential material
itself. Two descriptors that differ only in which credential value is
attached (agreeing on auth method shape and username) get identical digests. -/
theorem c1_repo_digest_credential_independent
    (r1 r2 : RemoteGitRepository) (g1 g2 : Bool)
    (hurl : r1.url.map urlRemote = r2.url.map urlRemote)
    (hsock : r1.sshAuthSocket.isSome = r2.sshAuthSocket.isSome)
    (htok : r1.authToken.isSome = r2.authToken.isSome)
    (hhdr : r1.authHeader.isSome = r2.authHeader.isSome)
    (huser : r1.authUsername = r2.authUsername)
    (hgit : g1 = g2) :
    computeCanonicalRepoDigest r1 g1 = computeCanonicalRepoDigest r2 g2 := by
  have hu : (match r1.url with
      | some u => [urlRemote u]
      | none => ([] : List Str)) =
      (match r2.url with
      | some u => [urlRemote u]
      | none => []) := by
    cases h1 : r1.url <;> cases h2 : r2.url <;>
      simp [h1, h2] at hurl ⊢
    exact hurl
  unfold computeCanonicalRepoDigest canonicalRepoParts
  rw [hu, hsock, htok, hhdr, huser, hgit]

/-! ## gitSchema.branch / gitSchema.tag ref-name normalization -/

/-- `gitSchema.branch` ref-name construction (src/unnamed/part_000 lines
418-425): when the client supports strict refs, the name becomes
`refs/heads/` plus the name with a leading `refs/heads/` removed. -/
def branchRefName (strictRefs : Bool) (name : Str) : Str :=
  if strictRefs then str "refs/heads/" ++ dropPfx name (str "refs/heads/") else name

/-- `gitSchema.tag` ref-name construction (src/unnamed/part_000 lines
427-434), analogous with the `refs/tags/` prefix. -/
def tagRefArgName (strictRefs : Bool) (name : Str) : Str :=
  if strictRefs then str "refs/tags/" ++ dropPfx name (str "refs/tags/") else name

/-- C10: with strict refs supported, `branch(name)` builds
`refs/heads/ + name` with a leading `refs/heads/` stripped; the
normalization is idempotent, so `branch("x")` and `branch("refs/heads/x")`
yield the same ref name; `tag` behaves analogously with `refs/tags/`. -/
theorem c10_branch_tag_normalization (name : Str) :
    branchRefName true name = str "refs/heads/" ++ dropPfx name (str "refs/heads/")
    ∧ branchRefName true (branchRefName true name) = branchRefName true name
    ∧ branchRefName true (str "x") = branchRefName true (str "refs/heads/x")
    ∧ tagRefArgName true name = str "refs/tags/" ++ dropPfx name (str "refs/tags/")
    ∧ tagRefArgName true (tagRefArgName true name) = tagRefArgName true name
    ∧ tagRefArgName true (str "x") = tagRefArgName true (str "refs/tags/x") := by
  refine ⟨rfl, ?_, by decide, rfl, ?_, by decide⟩
  · show branchRefName true (str "refs/heads/" ++ dropPfx name (str "refs/heads/")) = _
    unfold branchRefName
    rw [if_pos rfl, if_pos rfl, dropPfx_append]
  · show tagRefArgName true (str "refs/tags/" ++ dropPfx name (str "refs/tags/")) = _
    unfold tagRefArgName
    rw [if_pos rfl, if_pos rfl, dropPfx_append]

/-! ## RefRedirectResolver: ambiguous URL resolution
(`gitSchema.resolveAmbiguousURLViaRedirect`, src/unnamed/part_000 962-1003) -/

instance exceptDecEq {ε α : Type} [DecidableEq ε] [DecidableEq α] :
    DecidableEq (Except ε α) := fun x y =>
  match x, y with
  | .ok a, .ok b =>
    if h : a = b then isTrue (by rw [h]) else isFalse (fun hh => h (Except.ok.inj hh))
  | .ok _, .error _ => isFalse (fun hh => Except.noConfusion hh)
  | .error _, .ok _ => isFalse (fun hh => Except.noConfusion hh)
  | .error a, .error b =>
    if h : a = b then isTrue (by rw [h]) else isFalse (fun hh => h (Except.error.inj hh))

/-- Errors of the resolution protocol. `authFailed` stands for any error
matching `gitutil.ErrGitAuthFailed` via `errors.Is`; `other` for any other
error; `triedBothFailed` is the plain error
"failed to resolve git URL: tried https and ssh". -/
inductive GoErr where
  | authFailed : GoErr
  | other : Nat → GoErr
  | triedBothFailed : GoErr
deriving DecidableEq, Repr

/-- `errors.Is(err, gitutil.ErrGitAuthFailed)`. -/
def isAuthErr : GoErr → Bool
  | .authFailed => true
  | _ => false

/-- `gitSchema.resolveAmbiguousURLViaRedirect`. The redirected resolution
(`srv.Select` of `git(url: …) + __resolve` through the graph engine) is
abstracted as the oracle `resolve`; the second component records the
candidate URLs handed to the oracle, in order. -/
def resolveAmbiguousURLViaRedirect {α : Type} (remote : RemoteGitRepository) (rawURL : Str)
    (resolve : Str → Except GoErr α) : Except GoErr α × List Str :=
  if remote.sshAuthSocket.isSome then
    (resolve (str "ssh://git@" ++ rawURL), [str "ssh://git@" ++ rawURL])
  else if remote.authToken.isSome || remote.authHeader.isSome then
    (resolve (str "https://" ++ rawURL), [str "https://" ++ rawURL])
  else
    match resolve (str "https://" ++ rawURL) with
    | .ok r => (.ok r, [str "https://" ++ rawURL])
    | .error e =>
      if isAuthErr e then
        match resolve (str "ssh://git@" ++ rawURL) with
        | .ok r => (.ok r, [str "https://" ++ rawURL, str "ssh://git@" ++ rawURL])
        | .error e2 =>
          if isAuthErr e2 then
            (.error .triedBothFailed, [str "https://" ++ rawURL, str "ssh://git@" ++ rawURL])
          else
            (.error e2, [str "https://" ++ rawURL, str "ssh://git@" ++ rawURL])
      else (.error e, [str "https://" ++ rawURL])

/-- C4: ambiguous (protocol-less) URL resolution: an SSH socket selects
`ssh://git@raw` directly (https never attempted); an HTTP token or header
selects `https://raw` directly; with no auth, `https://raw` is attempted
strictly before `ssh://git@raw`, a success returns immediately, an
auth-class failure moves to the next candidate, any other failure aborts
without trying the rest, and exhausting the candidates with only auth
failures yields the error naming that both https and ssh were tried. -/
theorem c4_ambiguous_url_resolution {α : Type} (remote : RemoteGitRepository) (raw : Str)
    (resolve : Str → Except GoErr α) :
    (remote.sshAuthSocket.isSome = true →
      resolveAmbiguousURLViaRedirect remote raw resolve =
        (resolve (str "ssh://git@" ++ raw), [str "ssh://git@" ++ raw]))
    ∧ (remote.sshAuthSocket.isSome = false →
        (remote.authToken.isSome || remote.authHeader.isSome) = true →
      resolveAmbiguousURLViaRedirect remote raw resolve =
        (resolve (str "https://" ++ raw), [str "https://" ++ raw]))
    ∧ (remote.sshAuthSocket.isSome = false → remote.authToken.isSome = false →
        remote.authHeader.isSome = false →
      (∀ v, resolve (str "https://" ++ raw) = .ok v →
        resolveAmbiguousURLViaRedirect remote raw resolve = (.ok v, [str "https://" ++ raw]))
      ∧ (∀ e, resolve (str "https://" ++ raw) = .error e → isAuthErr e = false →
        resolveAmbiguousURLViaRedirect remote raw resolve = (.error e, [str "https://" ++ raw]))
      ∧ (∀ e v, resolve (str "https://" ++ raw) = .error e → isAuthErr e = true →
          resolve (str "ssh://git@" ++ raw) = .ok v →
        resolveAmbiguousURLViaRedirect remote raw resolve =
          (.ok v, [str "https://" ++ raw, str "ssh://git@" ++ raw]))
      ∧ (∀ e e2, resolve (str "https://" ++ raw) = .error e → isAuthErr e = true →
          resolve (str "ssh://git@" ++ raw) = .error e2 → isAuthErr e2 = false →
        resolveAmbiguousURLViaRedirect remote raw resolve =
          (.error e2, [str "https://" ++ raw, str "ssh://git@" ++ raw]))
      ∧ (∀ e e2, resolve (str "https://" ++ raw) = .error e → isAuthErr e = true →
          resolve (str "ssh://git@" ++ raw) = .error e2 → isAuthErr e2 = true →
        resolveAmbiguousURLViaRedirect remote raw resolve =
          (.error .triedBothFailed, [str "https://" ++ raw, str "ssh://git@" ++ raw]))) := by
  unfold resolveAmbiguousURLViaRedirect
  refine ⟨fun hs => by rw [if_pos hs], fun hs ht => by rw [if_neg (by simp [hs]), if_pos ht],
    fun hs ht hh => ?_⟩
  rw [if_neg (by simp [hs]), if_neg (by simp [ht, hh])]
  refine ⟨fun v hv => by rw [hv], fun e he hna => by rw [he]; simp [hna],
    fun e v he ha hv => by rw [he]; simp [ha]; rw [hv],
    fun e e2 he ha he2 hna => by rw [he]; simp [ha]; rw [he2]; simp [hna],
    fun e e2 he ha he2 ha2 => by rw [he]; simp [ha]; rw [he2]; simp [ha2]⟩

/-- Concrete witness for C4: with no auth attached, an auth failure on
https is followed by a successful ssh attempt, returned as the result. -/
theorem c4_witness :
    resolveAmbiguousURLViaRedirect
      { url := none, sshKnownHosts := [], sshAuthSocket := none, authUsername := [],
        authToken := none, authHeader := none, services := [] }
      (str "h/a")
      (fun u => if u = str "https://" ++ str "h/a" then Except.error GoErr.authFailed
                else Except.ok (7 : Nat)) =
      (Except.ok 7, [str "https://" ++ str "h/a", str "ssh://git@" ++ str "h/a"]) :=
  ((c4_ambiguous_url_resolution
      { url := none, sshKnownHosts := [], sshAuthSocket := none, authUsername := [],
        authToken := none, authHeader := none, services := [] }
      (str "h/a")
      (fun u => if u = str "https://" ++ str "h/a" then Except.error GoErr.authFailed
                else Except.ok (7 : Nat))).2.2 rfl rfl rfl).2.2.1
    GoErr.authFailed 7 (by decide) rfl (by decide)

/-! ## RefRedirectResolver: credential-store consultation
(`gitSchema.getCredentialFromStore` src/unnamed/part_000 1190-1246 and the
http/https branch of `gitSchema.resolveWithAuthFromContext` 1059-1089) -/

/-- Result of `bk.GetCredential`. -/
structure Creds where
  username : Str
  password : Str
deriving DecidableEq, Repr

/-- The ambient context consulted by `getCredentialFromStore`:
success/failure of `core.CurrentQuery`, the parent client's identity from
`query.NonModuleParentClientMetadata`, the current client's identity from
`engine.ClientMetadataFromContext`, success of `query.Buildkit`, the
credential-store answer, and success of the `setSecret` selection. -/
structure CredEnv where
  queryOk : Bool
  parentClientID : Option Str
  clientID : Option Str
  buildkitOk : Bool
  storeResult : Except Unit Creds
  setSecretOk : Bool
deriving DecidableEq, Repr

/-- `gitSchema.getCredentialFromStore`. Returns ((token, username, error),
consulted) where `token` is the secret wrapping the store's password,
`error` the function's error result, and `consulted` records whether
`bk.GetCredential` was actually called. -/
def getCredentialFromStore (env : CredEnv) : (Option Str × Str × Option GoErr) × Bool :=
  if !env.queryOk then ((none, [], none), false)
  else
    match env.parentClientID with
    | none => ((none, [], none), false)
    | some pid =>
      match env.clientID with
      | none => ((none, [], none), false)
      | some cid =>
        if cid ≠ pid then ((none, [], none), false)
        else if !env.buildkitOk then ((none, [], none), false)
        else
          match env.storeResult with
          | .error _ => ((none, [], none), true)
          | .ok creds =>
            if creds.password = [] then ((none, [], none), true)
            else if !env.setSecretOk then ((none, [], none), true)
            else ((some creds.password, creds.username, none), true)

/-- The `http`/`https` branch of `gitSchema.resolveWithAuthFromContext`:
`(result, ok, err)` — `ok = false, err = none` means the caller
(`repoResolve`) continues the current resolution as an explicit,
intentionally-unauthenticated leaf. The redirected `git(...)+__resolve`
selection with the found token attached is abstracted as `redirect`. -/
def resolveHTTPWithAuthFromContext {α : Type} (env : CredEnv)
    (redirect : Str → Str → Except GoErr α) : Option α × Bool × Option GoErr :=
  match getCredentialFromStore env with
  | ((tok, username, errv), _) =>
    match errv, tok with
    | some _, _ => (none, false, none)
    | none, none => (none, false, none)
    | none, some t =>
      match redirect t username with
      | .ok r => (some r, true, none)
      | .error e => (none, false, some e)

/-- C6: the credential store is consulted only when the current client is
the client that authored the surrounding request; on differing identities,
a missing entry, or any lookup failure, no credential is attached and no
error is raised — the resolution continues as an explicit,
intentionally-unauthenticated leaf. -/
theorem c6_credential_store_isolation {α : Type} (env : CredEnv)
    (redirect : Str → Str → Except GoErr α) :
    ((getCredentialFromStore env).2 = true →
      env.queryOk = true ∧ env.clientID.isSome = true ∧ env.clientID = env.parentClientID)
    ∧ (env.clientID ≠ env.parentClientID →
      (getCredentialFromStore env).2 = false ∧
        resolveHTTPWithAuthFromContext env redirect = (none, false, none))
    ∧ ((getCredentialFromStore env).1.2.2 = none)
    ∧ ((getCredentialFromStore env).1.1 = none →
      resolveHTTPWithAuthFromContext env redirect = (none, false, none)) := by
  rcases env with ⟨qok, pid, cid, bkok, store, setok⟩
  rcases qok <;> rcases pid with _ | pid <;> rcases cid with _ | cid <;>
    simp only [getCredentialFromStore, resolveHTTPWithAuthFromContext, Bool.not_true,
      Bool.not_false, if_true, if_false, Bool.false_eq_true] <;>
    try simp
  by_cases hcp : cid = pid
  · subst hcp
    rcases bkok <;> rcases store with _ | creds <;> simp
    by_cases hpw : creds.password = []
    · simp [hpw]
    · rcases setok <;> simp [hpw]
  · simp [hcp, Ne.symm hcp]

/-- Concrete witness for C6: the requesting client differs from the
authoring client, so the store is not consulted, no credential is attached
and no error is raised even though the store holds a credential. -/
theorem c6_witness :
    (getCredentialFromStore
        { queryOk := true, parentClientID := some (str "c1"), clientID := some (str "c2"),
          buildkitOk := true, storeResult := .ok ⟨str "u", str "pw"⟩, setSecretOk := true }).2
        = false
    ∧ resolveHTTPWithAuthFromContext
        { queryOk := true, parentClientID := some (str "c1"), clientID := some (str "c2"),
          buildkitOk := true, storeResult := .ok ⟨str "u", str "pw"⟩, setSecretOk := true }
        (fun _ _ => Except.ok (1 : Nat)) = (none, false, none) :=
  (c6_credential_store_isolation
      { queryOk := true, parentClientID := some (str "c1"), clientID := some (str "c2"),
        buildkitOk := true, storeResult := .ok ⟨str "u", str "pw"⟩, setSecretOk := true }
      (fun _ _ => Except.ok (1 : Nat))).2.1 (by decide)

/-! ## ContentHasher persistence (core/contenthash.go,
`GetContentHashFromDefWithOpts`) -/

/-- `bkcontenthash.ChecksumOpts`. -/
structure ChecksumOpts where
  followLinks : Bool
  wildcard : Bool
  includePatterns : List Str
  excludePatterns : List Str
deriving DecidableEq, Repr

/-- The metadata persisted on an immutable content reference
(`contenthash.CacheRefMetadata`, get/set of the content-hash key). -/
structure RefMeta where
  contentHashKey : Option Str
deriving DecidableEq, Repr

/-- The `storeMetadata` condition of `GetContentHashFromDefWithOpts`
(core/contenthash.go lines 131-140), computed after normalizing an empty
subdir to "/". -/
def storeMetadataCond (subdir0 : Str) (opts : ChecksumOpts) : Bool :=
  (if subdir0 = [] then str "/" else subdir0) = str "/"
    && opts.includePatterns.isEmpty && opts.excludePatterns.isEmpty

/-- The checksum computation of `GetContentHashFromDefWithOpts`
(core/contenthash.go lines 131-141 and 168-209) for an already evaluated
reference: reuse a persisted digest in the unfiltered-root case, otherwise
walk (`bkcontenthash.Checksum`, abstracted as `walk`), and persist the
fresh digest only in the unfiltered-root case (the metadata write is the
external backend's and is modelled as succeeding). Returns
((result, new metadata), whether the checksum walk ran). -/
def getContentHashClosure (walk : Str → ChecksumOpts → Except Unit Str)
    (st : RefMeta) (subdir0 : Str) (opts : ChecksumOpts) :
    (Except Unit Str × RefMeta) × Bool :=
  if storeMetadataCond subdir0 opts then
    match st.contentHashKey with
    | some d => ((.ok d, st), false)
    | none =>
      match walk (if subdir0 = [] then str "/" else subdir0) opts with
      | .error e => ((.error e, st), true)
      | .ok d => ((.ok d, { st with contentHashKey := some d }), true)
  else
    match walk (if subdir0 = [] then str "/" else subdir0) opts with
    | .error e => ((.error e, st), true)
    | .ok d => ((.ok d, st), true)

/-- C9: the digest is persisted on the reference exactly in the
unfiltered-root case (subdir normalized to "/", no include/exclude
patterns); in that case a previously persisted digest is returned without
running the walk; filtered or non-root calls never change the stored
metadata. -/
theorem c9_persist_iff_unfiltered_root (walk : Str → ChecksumOpts → Except Unit Str)
    (st : RefMeta) (subdir0 : Str) (opts : ChecksumOpts) :
    (storeMetadataCond subdir0 opts = false →
      (getContentHashClosure walk st subdir0 opts).1.2 = st)
    ∧ (∀ d, storeMetadataCond subdir0 opts = true → st.contentHashKey = some d →
      getContentHashClosure walk st subdir0 opts = ((.ok d, st), false))
    ∧ (∀ d, storeMetadataCond subdir0 opts = true → st.contentHashKey = none →
      walk (if subdir0 = [] then str "/" else subdir0) opts = .ok d →
      getContentHashClosure walk st subdir0 opts = ((.ok d, ⟨some d⟩), true))
    ∧ (∀ e, storeMetadataCond subdir0 opts = true → st.contentHashKey = none →
      walk (if subdir0 = [] then str "/" else subdir0) opts = .error e →
      (getContentHashClosure walk st subdir0 opts).1.2 = st)
    ∧ ((getContentHashClosure walk st subdir0 opts).1.2 ≠ st →
      storeMetadataCond subdir0 opts = true) := by
  refine ⟨fun hs => ?_, fun d hs hk => ?_, fun d hs hk hw => ?_, fun e hs hk hw => ?_, fun hne => ?_⟩
  · simp only [getContentHashClosure, hs, Bool.false_eq_true, if_false]
    cases walk (if subdir0 = [] then str "/" else subdir0) opts <;> simp
  · simp [getContentHashClosure, hs, hk]
  · simp [getContentHashClosure, hs, hk, hw]
  · simp [getContentHashClosure, hs, hk, hw]
  · by_contra hns
    apply hne
    rw [Bool.not_eq_true] at hns
    simp only [getContentHashClosure, hns, Bool.false_eq_true, if_false]
    cases walk (if subdir0 = [] then str "/" else subdir0) opts <;> simp

/-- Concrete witness for C9: an unfiltered-root call with no prior
metadata runs the walk and persists its digest. -/
theorem c9_witness :
    getContentHashClosure (fun _ _ => Except.ok (str "D")) ⟨none⟩ []
      ⟨true, false, [], []⟩ = ((.ok (str "D"), ⟨some (str "D")⟩), true) :=
  (c9_persist_iff_unfiltered_root (fun _ _ => Except.ok (str "D")) ⟨none⟩ []
      ⟨true, false, [], []⟩).2.2.1 (str "D") (by decide) rfl rfl

/-- Concrete witness for C1: two descriptors with the same URL, auth shape
and username, but different socket, token and header credential values (and
different known-hosts and services), share one digest. -/
theorem c1_witness :
    computeCanonicalRepoDigest
      { url := some ⟨str "https", none, str "github.com", str "/a/b"⟩
        sshKnownHosts := str "hostA"
        sshAuthSocket := some (str "sock-1")
        authUsername := str "alice"
        authToken := some (str "token-value-1")
        authHeader := some (str "header-value-1")
        services := [str "svc1"] } true =
    computeCanonicalRepoDigest
      { url := some ⟨str "https", none, str "github.com", str "/a/b"⟩
        sshKnownHosts := str "hostB"
        sshAuthSocket := some (str "sock-2")
        authUsername := str "alice"
        authToken := some (str "token-value-2")
        authHeader := some (str "header-value-2")
        services := [] } true :=
  c1_repo_digest_credential_independent _ _ _ _ rfl rfl rfl rfl rfl rfl

/-- Concrete witness for C2: on the parsed example remote, the code's
`Lookup("v1.0.0")` result equals the claim's algorithm, which selects the
un-peeled tag entry (priority over the peeled variant) with its SHA. -/
theorem c2_witness :
    egRemote.WfMap
    ∧ (egRemote.lookupRef (str "v1.0.0")).1 = checkoutLookupClaim egRemote (str "v1.0.0")
    ∧ checkoutLookupClaim egRemote (str "v1.0.0") =
        .ok ⟨str "refs/tags/v1.0.0", wSha2⟩ :=
  ⟨by decide,
   (c2_lookup_checkout_semantics egRemote (str "v1.0.0") rfl rfl (by decide)).2,
   by decide⟩
